import Mathlib

set_option linter.unusedSectionVars false
set_option linter.unnecessarySeqFocus false

/-!
Shallow embedding of the CSP solver engine in `pkg/csp/csp.go` of
`elireisman/generic-csp-go`, together with theorems settling the claims of
the specification against it.

Modelling choices, all taken from the Go source:

* A Go `map[V]D` is modelled as an association list `List (V × D)` with
  first-match lookup (`alookup`); a map value has no duplicate keys, which
  appears as a `NodupKeys` hypothesis where it matters.
* `Problem.Constraints` (`map[V][]Constraint[V]` in Go) is modelled as a
  total function `V → List (Constraint V)`: a Go map read of a missing key
  yields the nil slice, i.e. the empty bucket, so the observable behaviour
  of that map is exactly a total function defaulting to `[]`.
* Go map iteration order (`for v := range p.Domain` in `Solve`) is
  unspecified and varies between runs.  It is modelled by an explicit
  selector parameter `sel : Assignment V D → List V` giving the iteration
  order of the domain map used at the call whose assignment is the
  argument; a run of the Go program corresponds to some such selector
  whose every value is a permutation of the domain keys.
* `Solve`'s recursion is modelled with a fuel parameter (`solveFuel`)
  mirroring the recursion depth; `solve` instantiates the fuel at a bound
  proven sufficient (`solveFuel_congr`), so `solve` never reports fuel
  exhaustion.  A Go panic (`unassigned[0]` on an empty slice) is modelled
  as the `Except.error` result `"runtime error: index out of range"`.
* For the frame/aliasing claim about `dup`, a second, store-passing
  embedding (`solveFuelH`) makes the Go map references explicit: a store
  is a list of map values, a handle is an index into it, `dup` appends a
  copy, and `candidate[next] = v` mutates the candidate's handle in place.
-/

namespace Csp

/-- Association-list lookup, first match wins: the observable read
operation of a Go map value. -/
def alookup {V : Type} [DecidableEq V] {B : Type} (v : V) : List (V × B) → Option B
  | [] => none
  | q :: rest => if q.1 = v then some q.2 else alookup v rest

/-- An assignment: the Go `map[V]D` passed through `Solve`. -/
abbrev Assignment (V D : Type) := List (V × D)

/-- The key list of an association list. -/
def akeys {V B : Type} (m : List (V × B)) : List V := m.map Prod.fst

/-- The association list represents a Go map value: no duplicate keys. -/
def NodupKeys {V B : Type} (m : List (V × B)) : Prop := (akeys m).Nodup

/-- `Constraint[V comparable]` from `pkg/csp/csp.go`: just its variable list. -/
structure Constraint (V : Type) where
  Variables : List V
deriving DecidableEq

/-- `Problem[V, D comparable]` from `pkg/csp/csp.go`. -/
structure Problem (V D : Type) where
  Domain : List (V × List D)
  Constraints : V → List (Constraint V)
  SatFn : Constraint V → Assignment V D → Bool

variable {V D : Type} [DecidableEq V] [DecidableEq D]

/-- The declared variable set: the key set of the `Domain` map. -/
def domainKeys (p : Problem V D) : List V := p.Domain.map Prod.fst

/-- `p.Domain[v]` as read in `Solve`: a missing key yields the nil slice. -/
def domainOf (p : Problem V D) (v : V) : List D := (alookup v p.Domain).getD []

/-- `New` from `pkg/csp/csp.go`: empty constraint index. -/
def New (domain : List (V × List D)) (satFn : Constraint V → Assignment V D → Bool) :
    Problem V D :=
  { Domain := domain, Constraints := fun _ => [], SatFn := satFn }

/-- The loop body of `AddConstraint`: for each constraint variable in order,
check membership in the declared variable set; on a miss, panic (modelled
as `Except.error` carrying the offending variable, which the Go panic
message identifies) with the mutations made so far kept (the `Constraints`
map is a reference shared with the caller); otherwise append the constraint
to that variable's bucket and continue. -/
def addConstraintAux (c : Constraint V) : Problem V D → List V → Except V Unit × Problem V D
  | p, [] => (.ok (), p)
  | p, v :: rest =>
    if v ∈ domainKeys p then
      addConstraintAux c
        { p with Constraints := Function.update p.Constraints v (p.Constraints v ++ [c]) }
        rest
    else (.error v, p)

/-- `AddConstraint` from `pkg/csp/csp.go`. -/
def addConstraint (p : Problem V D) (c : Constraint V) : Except V Unit × Problem V D :=
  addConstraintAux c p c.Variables

/-- `consistent` from `pkg/csp/csp.go`: every constraint in the bucket of
`x` is satisfied (the Go loop returns `false` at the first unsatisfied
constraint, which is `List.all`'s short-circuit). -/
def consistent (p : Problem V D) (x : V) (asg : Assignment V D) : Bool :=
  (p.Constraints x).all fun c => p.SatFn c asg

/-- The `for _, v := range p.Domain[next]` loop of `Solve`: try each
candidate value in domain order; bind it (`next` is unassigned, so the Go
map write adds one binding, modelled as a cons), test consistency, recurse
on success, propagate the first solution or a panic, otherwise continue. -/
def solveVals (recur : Assignment V D → Except String (Option (Assignment V D)))
    (p : Problem V D) (next : V) (asg : Assignment V D) :
    List D → Except String (Option (Assignment V D))
  | [] => .ok none
  | d :: ds =>
    if consistent p next ((next, d) :: asg) then
      match recur ((next, d) :: asg) with
      | .error e => .error e
      | .ok (some result) => .ok (some result)
      | .ok none => solveVals recur p next asg ds
    else solveVals recur p next asg ds

/-- `Solve` from `pkg/csp/csp.go`, with explicit fuel for the recursion
depth (proven irrelevant above the unassigned-variable count in
`solveFuel_congr`) and the map iteration order supplied by `sel`.  The
base case compares sizes; otherwise the unassigned variables are collected
in iteration order and `unassigned[0]` is taken — on an empty list that Go
indexing panics, modelled as the index-out-of-range error. -/
def solveFuel : Nat → Problem V D → (Assignment V D → List V) → Assignment V D →
    Except String (Option (Assignment V D))
  | 0, _, _, _ => .error "fuel exhausted"
  | n + 1, p, sel, asg =>
    if asg.length = p.Domain.length then .ok (some asg)
    else
      match (sel asg).filter (fun v => (alookup v asg).isNone) with
      | [] => .error "runtime error: index out of range"
      | next :: _ => solveVals (solveFuel n p sel) p next asg (domainOf p next)

/-- The number of declared variables unassigned in `asg`: the recursion
depth bound. -/
def unassignedCount (p : Problem V D) (asg : Assignment V D) : Nat :=
  ((domainKeys p).filter (fun v => (alookup v asg).isNone)).length

/-- `Solve` from `pkg/csp/csp.go`: `solveFuel` at a sufficient fuel. -/
def solve (p : Problem V D) (sel : Assignment V D → List V) (asg : Assignment V D) :
    Except String (Option (Assignment V D)) :=
  solveFuel (unassignedCount p asg + 1) p sel asg

/-- The predicate of every registered constraint of `p` reads only the
values the assignment gives to the constraint's own variables (the shape of
every example predicate in the repository: the convention the spec
records). -/
def LocalSat (p : Problem V D) : Prop :=
  ∀ v c, c ∈ p.Constraints v → ∀ a1 a2,
    (∀ w ∈ c.Variables, alookup w a1 = alookup w a2) → p.SatFn c a1 = p.SatFn c a2

/-- The constraint index has the shape `AddConstraint` builds: a bucketed
constraint lists the bucket's variable among its own, all its variables are
declared, and it sits in the bucket of each of its variables. -/
def GoodIndex (p : Problem V D) : Prop :=
  ∀ v c, c ∈ p.Constraints v →
    v ∈ c.Variables ∧ ∀ w ∈ c.Variables, w ∈ domainKeys p ∧ c ∈ p.Constraints w

/-- Every bucketed constraint whose variables are all bound in `asg` is
satisfied by `asg`; the inductive invariant of the search. -/
def Inv (p : Problem V D) (asg : Assignment V D) : Prop :=
  ∀ v c, c ∈ p.Constraints v → (∀ w ∈ c.Variables, (alookup w asg).isSome) →
    p.SatFn c asg = true

/-- A heap of Go map values; a map reference is an index into it. -/
abbrev Store (V D : Type) := List (Assignment V D)

/-- `dup` from `pkg/csp/csp.go` in the store model: allocate a fresh map
holding a copy of the map at handle `h`, returning the new store and the
fresh handle. -/
def dup (st : Store V D) (h : Nat) : Store V D × Nat :=
  (st ++ [st.getD h []], st.length)

/-- A Go map write `m[v] = d`: overwrite any binding of `v`. -/
def mapSet (m : Assignment V D) (v : V) (d : D) : Assignment V D :=
  (v, d) :: m.filter fun q => decide (q.1 ≠ v)

/-- `candidate[next] = value` in the store model: write through handle `h`. -/
def storeSet (st : Store V D) (h : Nat) (v : V) (d : D) : Store V D :=
  st.set h (mapSet (st.getD h []) v d)

/-- The candidate-value loop of `Solve` in the store model: `dup` the
current assignment into a fresh map, bind the candidate value through the
fresh handle, and recurse on it; the maps of all callers are reachable
only through their own handles. -/
def solveValsH (recur : Store V D → Nat → Except String (Option Nat) × Store V D)
    (p : Problem V D) (next : V) (h : Nat) :
    Store V D → List D → Except String (Option Nat) × Store V D
  | st, [] => (.ok none, st)
  | st, d :: ds =>
    let alloc := dup st h
    let st1 := storeSet alloc.1 alloc.2 next d
    if consistent p next (st1.getD alloc.2 []) then
      match recur st1 alloc.2 with
      | (.error e, st2) => (.error e, st2)
      | (.ok (some res), st2) => (.ok (some res), st2)
      | (.ok none, st2) => solveValsH recur p next h st2 ds
    else solveValsH recur p next h st1 ds

/-- `Solve` in the store model: the argument is a handle into the store,
the result is a handle (ownership of the returned map passes to the
caller) together with the final store. -/
def solveFuelH : Nat → Problem V D → (Assignment V D → List V) → Store V D → Nat →
    Except String (Option Nat) × Store V D
  | 0, _, _, st, _ => (.error "fuel exhausted", st)
  | n + 1, p, sel, st, h =>
    let asg := st.getD h []
    if asg.length = p.Domain.length then (.ok (some h), st)
    else
      match (sel asg).filter (fun v => (alookup v asg).isNone) with
      | [] => (.error "runtime error: index out of range", st)
      | next :: _ => solveValsH (solveFuelH n p sel) p next h st (domainOf p next)

/-! ## Basic lemmas about the map model -/

theorem alookup_cons {B : Type} {v w : V} {b : B} {m : List (V × B)} :
    alookup w ((v, b) :: m) = if v = w then some b else alookup w m := rfl

theorem alookup_eq_none {B : Type} {v : V} {m : List (V × B)} :
    alookup v m = none ↔ v ∉ akeys m := by
  induction m with
  | nil => simp [alookup, akeys]
  | cons q rest ih =>
    simp only [akeys, List.map_cons, List.mem_cons, not_or] at *
    by_cases h : q.1 = v
    · simp [alookup, h]
    · simp only [alookup, if_neg h, ih]
      have hvq : ¬v = q.1 := fun hh => h hh.symm
      tauto

theorem alookup_mem {B : Type} {v : V} {b : B} {m : List (V × B)}
    (h : alookup v m = some b) : (v, b) ∈ m := by
  induction m with
  | nil => simp [alookup] at h
  | cons q rest ih =>
    obtain ⟨q1, q2⟩ := q
    by_cases hq : q1 = v
    · simp only [alookup, if_pos hq] at h
      simp only [Option.some.injEq] at h
      subst hq
      subst h
      exact List.mem_cons_self _ _
    · simp only [alookup, if_neg hq] at h
      exact List.mem_cons_of_mem _ (ih h)

theorem mem_akeys_of_alookup {B : Type} {v : V} {b : B} {m : List (V × B)}
    (h : alookup v m = some b) : v ∈ akeys m := by
  simpa [akeys] using List.mem_map_of_mem Prod.fst (alookup_mem h)

theorem alookup_isSome {B : Type} {v : V} {m : List (V × B)} :
    (alookup v m).isSome = true ↔ v ∈ akeys m := by
  cases he : alookup v m with
  | none => simpa using alookup_eq_none.mp he
  | some b => simpa using mem_akeys_of_alookup he

theorem length_filter_mono {l : List V} {pr pq : V → Bool}
    (h : ∀ v ∈ l, pr v = true → pq v = true) :
    (l.filter pr).length ≤ (l.filter pq).length := by
  rw [← List.countP_eq_length_filter, ← List.countP_eq_length_filter]
  exact List.countP_mono_left h

theorem length_filter_lt {l : List V} {pr pq : V → Bool}
    (h : ∀ v ∈ l, pr v = true → pq v = true) {x : V} (hx : x ∈ l)
    (hqx : pq x = true) (hrx : pr x = false) :
    (l.filter pr).length < (l.filter pq).length := by
  induction l with
  | nil => cases hx
  | cons y tl ih =>
    have htl : ∀ v ∈ tl, pr v = true → pq v = true :=
      fun v hv => h v (List.mem_cons_of_mem _ hv)
    rcases List.mem_cons.mp hx with rfl | hxtl
    · have hm : (tl.filter pr).length ≤ (tl.filter pq).length := length_filter_mono htl
      simp [List.filter_cons, hrx, hqx] <;> omega
    · have hlt := ih htl hxtl
      by_cases hr : pr y = true
      · have hqy := h y (List.mem_cons_self y tl) hr
        simp [List.filter_cons, hr, hqy] <;> omega
      · have hr2 : pr y = false := by simpa using hr
        by_cases hq : pq y = true
        · simp [List.filter_cons, hr2, hq] <;> omega
        · have hq2 : pq y = false := by simpa using hq
          simp [List.filter_cons, hr2, hq2] <;> omega

theorem unassignedCount_lt {p : Problem V D} {next : V} {d : D} {asg : Assignment V D}
    (hk : next ∈ domainKeys p) (hu : alookup next asg = none) :
    unassignedCount p ((next, d) :: asg) < unassignedCount p asg := by
  unfold unassignedCount
  refine length_filter_lt (fun v hv hvp => ?_) hk ?_ ?_
  · rw [Option.isNone_iff_eq_none] at hvp ⊢
    rw [alookup_cons] at hvp
    by_cases hnv : next = v
    · simp [hnv] at hvp
    · simpa [hnv] using hvp
  · simp [hu]
  · simp [alookup_cons]

/-! ## Lemmas about the candidate-value loop, generic in the recursive call -/

theorem solveVals_ok_some {p : Problem V D}
    {recur : Assignment V D → Except String (Option (Assignment V D))}
    {next : V} {asg : Assignment V D} {r : Assignment V D} :
    ∀ {ds : List D}, solveVals recur p next asg ds = .ok (some r) →
      ∃ d ∈ ds, consistent p next ((next, d) :: asg) = true ∧
        recur ((next, d) :: asg) = .ok (some r) := by
  intro ds
  induction ds with
  | nil => intro h; simp [solveVals] at h
  | cons d ds ih =>
    intro h
    by_cases hc : consistent p next ((next, d) :: asg) = true
    · rw [solveVals, if_pos hc] at h
      cases hrec : recur ((next, d) :: asg) with
      | error e => rw [hrec] at h; cases h
      | ok o =>
        cases o with
        | none =>
          rw [hrec] at h
          obtain ⟨d2, hd2, hc2, hr2⟩ := ih h
          exact ⟨d2, List.mem_cons_of_mem _ hd2, hc2, hr2⟩
        | some r2 =>
          rw [hrec] at h
          cases h
          exact ⟨d, List.mem_cons_self _ _, hc, hrec⟩
    · rw [solveVals, if_neg hc] at h
      obtain ⟨d2, hd2, hc2, hr2⟩ := ih h
      exact ⟨d2, List.mem_cons_of_mem _ hd2, hc2, hr2⟩

theorem solveVals_isOk {p : Problem V D}
    {recur : Assignment V D → Except String (Option (Assignment V D))}
    {next : V} {asg : Assignment V D} :
    ∀ {ds : List D}, (∀ d ∈ ds, ∃ o, recur ((next, d) :: asg) = .ok o) →
      ∃ o, solveVals recur p next asg ds = .ok o := by
  intro ds
  induction ds with
  | nil => intro _; exact ⟨none, rfl⟩
  | cons d ds ih =>
    intro h
    by_cases hc : consistent p next ((next, d) :: asg) = true
    · obtain ⟨o, ho⟩ := h d (List.mem_cons_self _ _)
      cases o with
      | none =>
        obtain ⟨o2, ho2⟩ := ih fun d2 hd2 => h d2 (List.mem_cons_of_mem _ hd2)
        exact ⟨o2, by rw [solveVals, if_pos hc, ho]; exact ho2⟩
      | some r => exact ⟨some r, by rw [solveVals, if_pos hc, ho]⟩
    · obtain ⟨o2, ho2⟩ := ih fun d2 hd2 => h d2 (List.mem_cons_of_mem _ hd2)
      exact ⟨o2, by rw [solveVals, if_neg hc]; exact ho2⟩

theorem solveVals_congr {p : Problem V D}
    {recur1 recur2 : Assignment V D → Except String (Option (Assignment V D))}
    {next : V} {asg : Assignment V D} :
    ∀ {ds : List D}, (∀ d ∈ ds, recur1 ((next, d) :: asg) = recur2 ((next, d) :: asg)) →
      solveVals recur1 p next asg ds = solveVals recur2 p next asg ds := by
  intro ds
  induction ds with
  | nil => intro _; rfl
  | cons d ds ih =>
    intro h
    have hd := h d (List.mem_cons_self _ _)
    have hds := ih fun d2 hd2 => h d2 (List.mem_cons_of_mem _ hd2)
    by_cases hc : consistent p next ((next, d) :: asg) = true
    · rw [solveVals, solveVals, if_pos hc, if_pos hc, hd, hds]
    · rw [solveVals, solveVals, if_neg hc, if_neg hc, hds]

/-! ## Inversion and invariants of the search -/

theorem solveFuel_base {p : Problem V D} {sel : Assignment V D → List V}
    {n : Nat} {asg : Assignment V D} (hb : asg.length = p.Domain.length) :
    solveFuel (n + 1) p sel asg = .ok (some asg) := by
  rw [solveFuel, if_pos hb]

theorem solveFuel_ok_some_inv {p : Problem V D} {sel : Assignment V D → List V}
    {n : Nat} {asg r : Assignment V D}
    (h : solveFuel (n + 1) p sel asg = .ok (some r)) :
    (asg.length = p.Domain.length ∧ r = asg) ∨
      ∃ next d, alookup next asg = none ∧ d ∈ domainOf p next ∧
        consistent p next ((next, d) :: asg) = true ∧
        solveFuel n p sel ((next, d) :: asg) = .ok (some r) := by
  by_cases hb : asg.length = p.Domain.length
  · rw [solveFuel, if_pos hb] at h
    cases h
    exact Or.inl ⟨hb, rfl⟩
  · rw [solveFuel, if_neg hb] at h
    cases hf : (sel asg).filter (fun v => (alookup v asg).isNone) with
    | nil => rw [hf] at h; cases h
    | cons next rest =>
      rw [hf] at h
      obtain ⟨d, hd, hc, hrec⟩ := solveVals_ok_some h
      have hmem : next ∈ (sel asg).filter (fun v => (alookup v asg).isNone) := by
        rw [hf]; exact List.mem_cons_self _ _
      have hnone : alookup next asg = none := by
        have := (List.mem_filter.mp hmem).2
        rwa [Option.isNone_iff_eq_none] at this
      exact Or.inr ⟨next, d, hnone, hd, hc, hrec⟩

theorem mem_domainKeys_of_domainOf {p : Problem V D} {next : V} {d : D}
    (hd : d ∈ domainOf p next) : next ∈ domainKeys p := by
  unfold domainOf at hd
  cases he : alookup next p.Domain with
  | none => rw [he] at hd; simp at hd
  | some l => exact mem_akeys_of_alookup he

theorem solveFuel_some_spec {p : Problem V D} {sel : Assignment V D → List V} :
    ∀ {n : Nat} {asg r : Assignment V D}, solveFuel n p sel asg = .ok (some r) →
      (∃ ext, r = ext ++ asg ∧
          ∀ q ∈ ext, q.1 ∈ domainKeys p ∧ q.2 ∈ domainOf p q.1 ∧ alookup q.1 asg = none) ∧
        r.length = p.Domain.length ∧ (NodupKeys asg → NodupKeys r) := by
  intro n
  induction n with
  | zero => intro asg r h; cases h
  | succ n ih =>
    intro asg r h
    rcases solveFuel_ok_some_inv h with ⟨hb, rfl⟩ | ⟨next, d, hu, hd, hc, hrec⟩
    · exact ⟨⟨[], by simp, by simp⟩, hb, fun hnd => hnd⟩
    · obtain ⟨⟨ext, hr, hprops⟩, hlen, hnd⟩ := ih hrec
      refine ⟨⟨ext ++ [(next, d)], by simp [hr], ?_⟩, hlen, ?_⟩
      · intro q hq
        rcases List.mem_append.mp hq with hqe | hqn
        · obtain ⟨hk, hv, hn⟩ := hprops q hqe
          rw [alookup_cons] at hn
          by_cases hqnext : next = q.1
          · simp [hqnext] at hn
          · exact ⟨hk, hv, by simpa [hqnext] using hn⟩
        · have : q = (next, d) := by simpa using hqn
          subst this
          exact ⟨mem_domainKeys_of_domainOf hd, hd, hu⟩
      · intro hkeys
        apply hnd
        unfold NodupKeys akeys at *
        simp only [List.map_cons, List.nodup_cons]
        exact ⟨by simpa [akeys] using alookup_eq_none.mp hu, hkeys⟩

theorem solveFuel_some_keys {p : Problem V D} {sel : Assignment V D → List V}
    {n : Nat} {asg r : Assignment V D} (h : solveFuel n p sel asg = .ok (some r))
    (hnd : NodupKeys asg)
    (hsub : ∀ v ∈ akeys asg, v ∈ domainKeys p) :
    r.length = p.Domain.length ∧ NodupKeys r ∧ (akeys r).Perm (domainKeys p) := by
  obtain ⟨⟨ext, hr, hprops⟩, hlen, hndr⟩ := solveFuel_some_spec h
  have ndr : NodupKeys r := hndr hnd
  have hrsub : ∀ v ∈ akeys r, v ∈ domainKeys p := by
    intro v hv
    rw [hr] at hv
    unfold akeys at hv
    rw [List.map_append, List.mem_append] at hv
    rcases hv with hv | hv
    · obtain ⟨q, hq, rfl⟩ := List.mem_map.mp hv
      exact (hprops q hq).1
    · exact hsub v hv
  have hlens : (domainKeys p).length ≤ (akeys r).length := by
    unfold akeys domainKeys
    rw [List.length_map, List.length_map, hlen]
  exact ⟨hlen, ndr, (List.subperm_of_subset ndr hrsub).perm_of_length_le hlens⟩

theorem solveFuel_isOk {p : Problem V D} {sel : Assignment V D → List V}
    (hdk : (domainKeys p).Nodup) (hsel : ∀ a, ∀ v ∈ domainKeys p, v ∈ sel a) :
    ∀ {n : Nat} {asg : Assignment V D}, unassignedCount p asg < n → NodupKeys asg →
      (∀ v ∈ akeys asg, v ∈ domainKeys p) →
      ∃ o, solveFuel n p sel asg = .ok o := by
  intro n
  induction n with
  | zero => intro asg h; exact absurd h (Nat.not_lt_zero _)
  | succ n ih =>
    intro asg hcnt hnd hsub
    by_cases hb : asg.length = p.Domain.length
    · exact ⟨some asg, solveFuel_base hb⟩
    · have hex : ∃ v ∈ domainKeys p, alookup v asg = none := by
        by_contra hall
        push_neg at hall
        have hset : ∀ v, v ∈ akeys asg ↔ v ∈ domainKeys p := by
          intro v
          refine ⟨fun hv => hsub v hv, fun hv => ?_⟩
          have := hall v hv
          cases he : alookup v asg with
          | none => exact absurd he this
          | some b => exact mem_akeys_of_alookup he
        have hperm := (List.perm_ext_iff_of_nodup hnd hdk).mpr hset
        have := hperm.length_eq
        unfold akeys domainKeys at this
        rw [List.length_map, List.length_map] at this
        exact hb this
      obtain ⟨w, hwk, hwu⟩ := hex
      have hwf : w ∈ (sel asg).filter (fun v => (alookup v asg).isNone) :=
        List.mem_filter.mpr ⟨hsel asg w hwk, by simp [hwu]⟩
      cases hf : (sel asg).filter (fun v => (alookup v asg).isNone) with
      | nil => rw [hf] at hwf; cases hwf
      | cons next rest =>
        have hnmem : next ∈ (sel asg).filter (fun v => (alookup v asg).isNone) := by
          rw [hf]; exact List.mem_cons_self _ _
        have hnu : alookup next asg = none := by
          have := (List.mem_filter.mp hnmem).2
          rwa [Option.isNone_iff_eq_none] at this
        have hvals : ∃ o, solveVals (solveFuel n p sel) p next asg (domainOf p next) = .ok o := by
          apply solveVals_isOk
          intro d hd
          have hnk : next ∈ domainKeys p := mem_domainKeys_of_domainOf hd
          apply ih
          · exact Nat.lt_of_lt_of_le (unassignedCount_lt hnk hnu) (Nat.lt_succ_iff.mp hcnt)
          · unfold NodupKeys akeys
            simp only [List.map_cons, List.nodup_cons]
            exact ⟨by simpa [akeys] using alookup_eq_none.mp hnu, hnd⟩
          · intro v hv
            unfold akeys at hv
            simp only [List.map_cons, List.mem_cons] at hv
            rcases hv with rfl | hv
            · exact hnk
            · exact hsub v hv
        obtain ⟨o, ho⟩ := hvals
        exact ⟨o, by rw [solveFuel, if_neg hb, hf]; exact ho⟩

theorem solveFuel_congr {p : Problem V D} {sel : Assignment V D → List V} :
    ∀ {n m : Nat} {asg : Assignment V D}, unassignedCount p asg < n →
      unassignedCount p asg < m → solveFuel n p sel asg = solveFuel m p sel asg := by
  intro n
  induction n with
  | zero => intro m asg h; exact absurd h (Nat.not_lt_zero _)
  | succ n ih =>
    intro m asg hn hm
    cases m with
    | zero => exact absurd hm (Nat.not_lt_zero _)
    | succ m =>
      by_cases hb : asg.length = p.Domain.length
      · rw [solveFuel_base hb, solveFuel_base hb]
      · rw [solveFuel, if_neg hb, solveFuel, if_neg hb]
        cases hf : (sel asg).filter (fun v => (alookup v asg).isNone) with
        | nil => rfl
        | cons next rest =>
          apply solveVals_congr
          intro d hd
          have hnk : next ∈ domainKeys p := mem_domainKeys_of_domainOf hd
          have hnmem : next ∈ (sel asg).filter (fun v => (alookup v asg).isNone) := by
            rw [hf]; exact List.mem_cons_self _ _
          have hnu : alookup next asg = none := by
            have := (List.mem_filter.mp hnmem).2
            rwa [Option.isNone_iff_eq_none] at this
          have hlt := unassignedCount_lt (d := d) hnk hnu
          exact ih (Nat.lt_of_lt_of_le hlt (Nat.lt_succ_iff.mp hn))
            (Nat.lt_of_lt_of_le hlt (Nat.lt_succ_iff.mp hm))

theorem solve_eq_solveFuel {p : Problem V D} {sel : Assignment V D → List V}
    {asg : Assignment V D} {n : Nat} (h : unassignedCount p asg < n) :
    solveFuel n p sel asg = solve p sel asg :=
  solveFuel_congr h (Nat.lt_succ_self _)

theorem solveFuel_sel_congr {p : Problem V D} {sel1 sel2 : Assignment V D → List V}
    (hs : ∀ a, (sel1 a).filter (fun v => (alookup v a).isNone) =
      (sel2 a).filter (fun v => (alookup v a).isNone)) :
    ∀ {n : Nat} {asg : Assignment V D}, solveFuel n p sel1 asg = solveFuel n p sel2 asg := by
  intro n
  induction n with
  | zero => intro asg; rfl
  | succ n ih =>
    intro asg
    by_cases hb : asg.length = p.Domain.length
    · rw [solveFuel_base hb, solveFuel_base hb]
    · rw [solveFuel, if_neg hb, solveFuel, if_neg hb, hs asg]
      cases hf : (sel2 asg).filter (fun v => (alookup v asg).isNone) with
      | nil => rfl
      | cons next rest =>
        exact solveVals_congr fun d hd => ih

/-! ## Soundness of the local consistency check -/

theorem consistent_all {p : Problem V D} {x : V} {asg : Assignment V D}
    (h : consistent p x asg = true) : ∀ c ∈ p.Constraints x, p.SatFn c asg = true := by
  simpa [consistent, List.all_eq_true] using h

theorem consistent_iff {p : Problem V D} {x : V} {asg : Assignment V D} :
    consistent p x asg = true ↔ ∀ c ∈ p.Constraints x, p.SatFn c asg = true := by
  simp [consistent, List.all_eq_true]

theorem solveFuel_sound {p : Problem V D} {sel : Assignment V D → List V}
    (hloc : LocalSat p) (hgi : GoodIndex p) :
    ∀ {n : Nat} {asg r : Assignment V D}, Inv p asg →
      solveFuel n p sel asg = .ok (some r) → Inv p r := by
  intro n
  induction n with
  | zero => intro asg r _ h; cases h
  | succ n ih =>
    intro asg r hinv h
    rcases solveFuel_ok_some_inv h with ⟨hb, rfl⟩ | ⟨next, d, hu, hd, hc, hrec⟩
    · exact hinv
    · apply ih _ hrec
      intro v c hcv hall
      by_cases hnc : next ∈ c.Variables
      · have hcnext : c ∈ p.Constraints next := ((hgi v c hcv).2 next hnc).2
        exact consistent_all hc c hcnext
      · have hagree : ∀ w ∈ c.Variables, alookup w ((next, d) :: asg) = alookup w asg := by
          intro w hw
          rw [alookup_cons, if_neg (fun he => hnc (by rw [he]; exact hw))]
        have hallasg : ∀ w ∈ c.Variables, (alookup w asg).isSome := by
          intro w hw
          rw [← hagree w hw]
          exact hall w hw
        rw [hloc v c hcv _ _ hagree]
        exact hinv v c hcv hallasg

/-! ## Structure of the constraint index built by AddConstraint -/

theorem addConstraintAux_ok {c : Constraint V} :
    ∀ {vs : List V} {p : Problem V D}, (∀ v ∈ vs, v ∈ domainKeys p) →
      ∃ p2, addConstraintAux c p vs = (.ok (), p2) ∧ p2.Domain = p.Domain ∧
        p2.SatFn = p.SatFn ∧
        ∀ w, p2.Constraints w = p.Constraints w ++ List.replicate (vs.count w) c := by
  intro vs
  induction vs with
  | nil => intro p _; exact ⟨p, rfl, rfl, rfl, fun w => by simp⟩
  | cons v vs ih =>
    intro p hall
    have hv : v ∈ domainKeys p := hall v (List.mem_cons_self _ _)
    obtain ⟨p2, heq, hdom, hsat, hbuck⟩ :=
      ih (p := { p with Constraints := Function.update p.Constraints v (p.Constraints v ++ [c]) })
        (fun u hu => hall u (List.mem_cons_of_mem _ hu))
    refine ⟨p2, ?_, hdom, hsat, ?_⟩
    · rw [addConstraintAux, if_pos hv]
      exact heq
    · intro w
      rw [hbuck w]
      by_cases hw : w = v
      · subst hw
        simp [Function.update_apply, List.count_cons, List.append_assoc, List.replicate_succ]
      · simp [Function.update_apply, List.count_cons, hw, Ne.symm hw]

theorem addConstraintAux_err {c : Constraint V} :
    ∀ {pre : List V} {v : V} {rest : List V} {p : Problem V D},
      (∀ u ∈ pre, u ∈ domainKeys p) → v ∉ domainKeys p →
      ∃ p2, addConstraintAux c p (pre ++ v :: rest) = (.error v, p2) ∧ p2.Domain = p.Domain ∧
        p2.SatFn = p.SatFn ∧
        ∀ w, p2.Constraints w = p.Constraints w ++ List.replicate (pre.count w) c := by
  intro pre
  induction pre with
  | nil =>
    intro v rest p _ hv
    refine ⟨p, ?_, rfl, rfl, fun w => by simp⟩
    rw [List.nil_append, addConstraintAux, if_neg hv]
  | cons u pre ih =>
    intro v rest p hall hv
    have hu : u ∈ domainKeys p := hall u (List.mem_cons_self _ _)
    obtain ⟨p2, heq, hdom, hsat, hbuck⟩ :=
      @ih v rest
        { p with Constraints := Function.update p.Constraints u (p.Constraints u ++ [c]) }
        (fun w hw => hall w (List.mem_cons_of_mem _ hw)) hv
    refine ⟨p2, ?_, hdom, hsat, ?_⟩
    · rw [List.cons_append, addConstraintAux, if_pos hu]
      exact heq
    · intro w
      rw [hbuck w]
      by_cases hw : w = u
      · subst hw
        simp [Function.update_apply, List.count_cons, List.append_assoc, List.replicate_succ]
      · simp [Function.update_apply, List.count_cons, hw, Ne.symm hw]

theorem addConstraintAux_ok_inv {c : Constraint V} :
    ∀ {vs : List V} {p p2 : Problem V D}, addConstraintAux c p vs = (.ok (), p2) →
      ∀ v ∈ vs, v ∈ domainKeys p := by
  intro vs
  induction vs with
  | nil => intro p p2 _ v hv; cases hv
  | cons u vs ih =>
    intro p p2 h v hv
    by_cases hu : u ∈ domainKeys p
    · rcases List.mem_cons.mp hv with rfl | hvtl
      · exact hu
      · rw [addConstraintAux, if_pos hu] at h
        exact ih h v hvtl
    · rw [addConstraintAux, if_neg hu] at h
      cases h

theorem goodIndex_New {domain : List (V × List D)}
    {satFn : Constraint V → Assignment V D → Bool} : GoodIndex (New domain satFn) := by
  intro v c hc
  simp [New] at hc

theorem goodIndex_addConstraint {p : Problem V D} {c : Constraint V} {p2 : Problem V D}
    (hgi : GoodIndex p) (h : addConstraint p c = (.ok (), p2)) : GoodIndex p2 := by
  have hall : ∀ v ∈ c.Variables, v ∈ domainKeys p := by
    unfold addConstraint at h
    exact addConstraintAux_ok_inv h
  obtain ⟨p3, heq, hdom, hsat, hbuck⟩ := addConstraintAux_ok (c := c) hall
  have hp3 : p3 = p2 := by
    unfold addConstraint at h
    rw [heq] at h
    injection h with h1 h2
  subst hp3
  have hkeys : domainKeys p3 = domainKeys p := by unfold domainKeys; rw [hdom]
  intro v c2 hc2
  rw [hbuck v] at hc2
  rcases List.mem_append.mp hc2 with hold | hrep
  · obtain ⟨hvmem, hrest⟩ := hgi v c2 hold
    refine ⟨hvmem, fun w hw => ?_⟩
    obtain ⟨hwk, hwb⟩ := hrest w hw
    refine ⟨by rw [hkeys]; exact hwk, ?_⟩
    rw [hbuck w]
    exact List.mem_append.mpr (Or.inl hwb)
  · have hc2c : c2 = c := List.eq_of_mem_replicate hrep
    subst hc2c
    have hvmem : v ∈ c2.Variables := by
      by_contra hvn
      rw [List.count_eq_zero.mpr hvn] at hrep
      simp at hrep
    refine ⟨hvmem, fun w hw => ?_⟩
    refine ⟨by rw [hkeys]; exact hall w hw, ?_⟩
    rw [hbuck w]
    refine List.mem_append.mpr (Or.inr ?_)
    rw [List.mem_replicate]
    exact ⟨by have := List.count_pos_iff.mpr hw; omega, rfl⟩

theorem unassignedCount_eq {p : Problem V D} {asg : Assignment V D}
    (hdk : (domainKeys p).Nodup) (hnd : NodupKeys asg)
    (hsub : ∀ v ∈ akeys asg, v ∈ domainKeys p) :
    unassignedCount p asg = p.Domain.length - asg.length := by
  have hsplit :=
    List.length_eq_length_filter_add (l := domainKeys p) (fun v => (alookup v asg).isNone)
  have hbound :
      ((domainKeys p).filter (fun v => !(alookup v asg).isNone)).length = asg.length := by
    have hperm :
        ((domainKeys p).filter (fun v => !(alookup v asg).isNone)).Perm (akeys asg) := by
      apply (List.perm_ext_iff_of_nodup (hdk.filter _) hnd).mpr
      intro v
      rw [List.mem_filter]
      constructor
      · rintro ⟨hv, hb⟩
        cases he : alookup v asg with
        | none => rw [he] at hb; simp at hb
        | some b => exact mem_akeys_of_alookup he
      · intro hv
        refine ⟨hsub v hv, ?_⟩
        cases he : alookup v asg with
        | none => exact absurd (alookup_eq_none.mp he) (by simp [hv])
        | some b => simp
    have hlen := hperm.length_eq
    rw [hlen]
    unfold akeys
    rw [List.length_map]
  unfold unassignedCount
  have hdlen : (domainKeys p).length = p.Domain.length := by
    unfold domainKeys
    rw [List.length_map]
  omega

/-! ## The store model: dup confines candidate bindings to a fresh map -/

theorem storeStep_len {st : Store V D} {h : Nat} {next : V} {d : D} :
    (storeSet (dup st h).1 (dup st h).2 next d).length = st.length + 1 := by
  unfold storeSet dup
  rw [List.length_set, List.length_append]
  rfl

theorem storeStep_get {st : Store V D} {h : Nat} {next : V} {d : D} {i : Nat}
    (hi : i < st.length) :
    (storeSet (dup st h).1 (dup st h).2 next d)[i]? = st[i]? := by
  unfold storeSet dup
  rw [List.getElem?_set_ne (by omega), List.getElem?_append, if_pos hi]

theorem solveValsH_frame {p : Problem V D} {next : V} {h : Nat}
    {recur : Store V D → Nat → Except String (Option Nat) × Store V D}
    (hrec : ∀ st h2, st.length ≤ ((recur st h2).2).length ∧
      ∀ i, i < st.length → ((recur st h2).2)[i]? = st[i]?) :
    ∀ {ds : List D} {st : Store V D},
      st.length ≤ ((solveValsH recur p next h st ds).2).length ∧
      ∀ i, i < st.length → ((solveValsH recur p next h st ds).2)[i]? = st[i]? := by
  intro ds
  induction ds with
  | nil => intro st; exact ⟨Nat.le_refl _, fun i _ => rfl⟩
  | cons d ds ih =>
    intro st
    have hst1len : st.length ≤ (storeSet (dup st h).1 (dup st h).2 next d).length := by
      rw [storeStep_len]; omega
    have hst1get : ∀ i, i < st.length →
        (storeSet (dup st h).1 (dup st h).2 next d)[i]? = st[i]? :=
      fun i hi => storeStep_get hi
    rw [solveValsH]
    by_cases hc : consistent p next
        ((storeSet (dup st h).1 (dup st h).2 next d).getD (dup st h).2 []) = true
    · rw [if_pos hc]
      rcases hrecv : recur (storeSet (dup st h).1 (dup st h).2 next d) (dup st h).2
        with ⟨r1, st2⟩
      have hr := hrec (storeSet (dup st h).1 (dup st h).2 next d) (dup st h).2
      rw [hrecv] at hr
      obtain ⟨hlen2, hget2⟩ := hr
      cases r1 with
      | error e =>
        refine ⟨by simpa using Nat.le_trans hst1len hlen2, fun i hi => ?_⟩
        simp only
        rw [hget2 i (Nat.lt_of_lt_of_le hi hst1len), hst1get i hi]
      | ok o =>
        cases o with
        | some res =>
          refine ⟨by simpa using Nat.le_trans hst1len hlen2, fun i hi => ?_⟩
          simp only
          rw [hget2 i (Nat.lt_of_lt_of_le hi hst1len), hst1get i hi]
        | none =>
          obtain ⟨hlen3, hget3⟩ := @ih st2
          refine ⟨Nat.le_trans (Nat.le_trans hst1len hlen2) hlen3, fun i hi => ?_⟩
          rw [hget3 i (Nat.lt_of_lt_of_le hi (Nat.le_trans hst1len hlen2)),
            hget2 i (Nat.lt_of_lt_of_le hi hst1len), hst1get i hi]
    · rw [if_neg hc]
      obtain ⟨hlen3, hget3⟩ := @ih (storeSet (dup st h).1 (dup st h).2 next d)
      refine ⟨Nat.le_trans hst1len hlen3, fun i hi => ?_⟩
      rw [hget3 i (Nat.lt_of_lt_of_le hi hst1len), hst1get i hi]

theorem solveFuelH_frame {p : Problem V D} {sel : Assignment V D → List V} :
    ∀ {n : Nat} {st : Store V D} {h : Nat},
      st.length ≤ ((solveFuelH n p sel st h).2).length ∧
      ∀ i, i < st.length → ((solveFuelH n p sel st h).2)[i]? = st[i]? := by
  intro n
  induction n with
  | zero => intro st h; exact ⟨Nat.le_refl _, fun i _ => rfl⟩
  | succ n ih =>
    intro st h
    rw [solveFuelH]
    by_cases hb : (st.getD h []).length = p.Domain.length
    · rw [if_pos hb]
      exact ⟨Nat.le_refl _, fun i _ => rfl⟩
    · rw [if_neg hb]
      cases hf : (sel (st.getD h [])).filter (fun v => (alookup v (st.getD h [])).isNone) with
      | nil => exact ⟨Nat.le_refl _, fun i _ => rfl⟩
      | cons next rest =>
        exact solveValsH_frame fun st2 h2 => ih

/-! ## Claim theorems -/

/-- C5: for every Problem and every assignment whose size equals the number
of declared variables, Solve returns that assignment itself immediately;
the result does not depend on the constraint index, the satisfaction
predicate, or the iteration order, so no constraint predicate is evaluated
and no candidate value is explored. -/
theorem spec_C5 {domain : List (V × List D)} {cs : V → List (Constraint V)}
    {satFn : Constraint V → Assignment V D → Bool} (sel : Assignment V D → List V)
    {asg : Assignment V D} (h : asg.length = domain.length) :
    solve ⟨domain, cs, satFn⟩ sel asg = .ok (some asg) := by
  unfold solve
  exact solveFuel_base h

/-- Witness for C5 at a concrete input: an assignment of the right size is
returned unchanged even though it binds an undeclared variable. -/
theorem spec_C5_witness :
    solve (⟨[((0 : Nat), [(0 : Nat)])], fun _ => [], fun _ _ => true⟩ : Problem Nat Nat)
      (fun _ => [0]) [(5, 9)] = .ok (some [(5, 9)]) :=
  spec_C5 (fun _ => [0]) rfl

/-- C9: under the stated preconditions the search terminates within
recursion depth `|declared| - |initially bound|`: any fuel beyond that
bound yields the very result of `solve`. -/
theorem spec_C9 {p : Problem V D} {sel : Assignment V D → List V} {asg : Assignment V D}
    (hdk : (domainKeys p).Nodup) (hnd : NodupKeys asg)
    (hsub : ∀ v ∈ akeys asg, v ∈ domainKeys p) {n : Nat}
    (hn : p.Domain.length - asg.length < n) :
    solveFuel n p sel asg = solve p sel asg := by
  have hcnt := unassignedCount_eq hdk hnd hsub
  exact solve_eq_solveFuel (by omega)

/-- Witness for C9 at a concrete input. -/
theorem spec_C9_witness :
    solveFuel 5 (New [((0 : Nat), [(1 : Nat)])] (fun _ _ => true)) (fun _ => [0]) [] =
      solve (New [((0 : Nat), [(1 : Nat)])] (fun _ _ => true)) (fun _ => [0]) [] :=
  spec_C9 (by decide) (by simp [NodupKeys, akeys])
    (fun v hv => absurd hv (by simp [akeys])) (by decide)

/-- C10: when the initial assignment's keys are a subset of the declared
variables (and both are maps), the `unassigned[0]` indexing is always in
range and Solve returns an ordinary result; and on a concrete assignment
binding every declared variable plus an undeclared one, Solve neither
returns a solution nor the sentinel but panics with an out-of-range
index. -/
theorem spec_C10 :
    (∀ (p : Problem V D) (sel : Assignment V D → List V) (asg : Assignment V D),
      (domainKeys p).Nodup → NodupKeys asg → (∀ v ∈ akeys asg, v ∈ domainKeys p) →
      (∀ a, ∀ v ∈ domainKeys p, v ∈ sel a) → ∃ o, solve p sel asg = .ok o) ∧
    solve (New [((0 : Nat), [(0 : Nat)])] (fun _ _ => true)) (fun _ => [0]) [(0, 0), (1, 1)] =
      .error "runtime error: index out of range" := by
  constructor
  · intro p sel asg hdk hnd hsub hsel
    unfold solve
    exact solveFuel_isOk hdk hsel (Nat.lt_succ_self _) hnd hsub
  · rfl

/-- Witness for C10's universal part at a concrete input. -/
theorem spec_C10_witness :
    (solve (New [((0 : Nat), [(1 : Nat)])] (fun _ _ => true)) (fun _ => [0]) []).isOk = true := by
  obtain ⟨o, ho⟩ := spec_C10.1 (New [((0 : Nat), [(1 : Nat)])] (fun _ _ => true))
    (fun _ => [0]) [] (by decide) (by simp [NodupKeys, akeys])
    (fun v hv => absurd hv (by simp [akeys])) (fun a v hv => hv)
  rw [ho]
  rfl

/-- C7: a Problem in which some declared variable has an empty domain is
reported unsatisfiable by Solve from the empty assignment: the ordinary
`none` result, not a panic. -/
theorem spec_C7 {p : Problem V D} {sel : Assignment V D → List V}
    (hdk : (domainKeys p).Nodup) (hsel : ∀ a, ∀ v ∈ domainKeys p, v ∈ sel a)
    {e : V} (he : alookup e p.Domain = some []) :
    solve p sel [] = .ok none := by
  have hek : e ∈ domainKeys p := mem_akeys_of_alookup he
  obtain ⟨o, ho⟩ := @solveFuel_isOk V D _ _ p sel hdk hsel
    (unassignedCount p [] + 1) [] (Nat.lt_succ_self _)
    (by simp [NodupKeys, akeys]) (fun v hv => absurd hv (by simp [akeys]))
  cases o with
  | none => exact ho
  | some r =>
    exfalso
    obtain ⟨hlen, ndr, hperm⟩ := solveFuel_some_keys ho (by simp [NodupKeys, akeys])
      (fun v hv => absurd hv (by simp [akeys]))
    have her : e ∈ r.map Prod.fst := hperm.mem_iff.mpr hek
    obtain ⟨q, hq, hqe⟩ := List.mem_map.mp her
    obtain ⟨⟨ext, hr, hprops⟩, _, _⟩ := solveFuel_some_spec ho
    rw [hr, List.append_nil] at hq
    have hdom := (hprops q hq).2.1
    rw [hqe] at hdom
    unfold domainOf at hdom
    rw [he] at hdom
    simp at hdom

/-- Witness for C7 at a concrete input: variable 0 is declared with an
empty domain, so the two-variable problem is unsatisfiable. -/
theorem spec_C7_witness :
    solve (New [((0 : Nat), ([] : List Nat)), (1, [3])] (fun _ _ => true))
      (fun _ => [0, 1]) [] = .ok none :=
  spec_C7 (by decide) (fun a v hv => hv) (e := 0) rfl

/-- C8: the store-passing model of Solve never changes any map that existed
before the call: every binding made while trying a candidate value goes
through the fresh handle allocated by `dup`, so the caller's assignment map
is exactly as it was when Solve returns, whatever the result. -/
theorem spec_C8 (n : Nat) (p : Problem V D) (sel : Assignment V D → List V)
    (st : Store V D) (h i : Nat) (hi : i < st.length) :
    ((solveFuelH n p sel st h).2)[i]? = st[i]? :=
  solveFuelH_frame.2 i hi

/-- Witness for C8 at a concrete input: the caller's map at handle 0 is
untouched by a full search. -/
theorem spec_C8_witness :
    ((solveFuelH 3 (New [((0 : Nat), [(7 : Nat)])] (fun _ _ => true)) (fun _ => [0])
        [[]] 0).2)[0]? = some [] :=
  spec_C8 3 (New [((0 : Nat), [(7 : Nat)])] (fun _ _ => true)) (fun _ => [0]) [[]] 0 0
    (by decide)

/-- C4, counterexample: one Problem, built by one construction sequence,
and two iteration orders of its domain map (both permutations of the
declared variable set, as Go map iteration may produce in two runs): the
two calls to Solve return different assignments, so Solve's result is not
determined by declaration, domain and registration order alone. -/
theorem spec_C4_cx :
    solve (addConstraint (New [((0 : Nat), [(0 : Nat), 1]), (1, [0, 1])]
        (fun _ asg => match alookup 0 asg, alookup 1 asg with
          | some x, some y => decide (x ≠ y)
          | _, _ => true)) ⟨[0, 1]⟩).2 (fun _ => [0, 1]) [] = .ok (some [(1, 1), (0, 0)]) ∧
    solve (addConstraint (New [((0 : Nat), [(0 : Nat), 1]), (1, [0, 1])]
        (fun _ asg => match alookup 0 asg, alookup 1 asg with
          | some x, some y => decide (x ≠ y)
          | _, _ => true)) ⟨[0, 1]⟩).2 (fun _ => [1, 0]) [] = .ok (some [(0, 1), (1, 0)]) ∧
    alookup 0 [((1 : Nat), (1 : Nat)), (0, 0)] ≠ alookup 0 [((0 : Nat), (1 : Nat)), (1, 0)] :=
  ⟨rfl, rfl, by decide⟩

/-- C4, amended: determinism holds relative to the map iteration order:
Solve's result is a function of the Problem data, the initial assignment
and the per-step iteration order restricted to the unassigned variables —
two runs whose iteration orders agree on the unassigned variables at every
step return identical results. -/
theorem spec_C4 {p : Problem V D} {sel1 sel2 : Assignment V D → List V}
    (hs : ∀ a, (sel1 a).filter (fun v => (alookup v a).isNone) =
      (sel2 a).filter (fun v => (alookup v a).isNone))
    (asg : Assignment V D) : solve p sel1 asg = solve p sel2 asg := by
  unfold solve
  exact solveFuel_sel_congr hs

/-- Witness for C4's amended theorem at a concrete input. -/
theorem spec_C4_witness :
    solve (New [((0 : Nat), [(0 : Nat)]), (1, [0])] (fun _ _ => true)) (fun _ => [0, 1]) [] =
      solve (New [((0 : Nat), [(0 : Nat)]), (1, [0])] (fun _ _ => true))
        (fun _ => [0] ++ [1]) [] :=
  spec_C4 (fun _ => rfl) []

/-- C2, counterexample: an initial assignment binding only an undeclared
variable has the size of the declared variable set, so Solve returns it at
once — its size matches, but the declared variable 0 is not bound in it,
refuting the claim over every assignment returned by Solve. -/
theorem spec_C2_cx :
    solve (New [((0 : Nat), [(7 : Nat)])] (fun _ _ => true)) (fun _ => [0]) [(1, 5)] =
      .ok (some [(1, 5)]) ∧
    (0 : Nat) ∈ domainKeys (New [((0 : Nat), [(7 : Nat)])]
      (fun (_ : Constraint Nat) (_ : Assignment Nat Nat) => true)) ∧
    (0 : Nat) ∉ akeys ([(1, 5)] : Assignment Nat Nat) :=
  ⟨rfl, by decide, by decide⟩

/-- C2, amended: provided the initial assignment is a map whose keys are
declared variables, any assignment Solve returns has the size of the
declared variable set, binds each variable at most once, and binds exactly
the declared variables. -/
theorem spec_C2 {p : Problem V D} {sel : Assignment V D → List V} {asg r : Assignment V D}
    (hnd : NodupKeys asg) (hsub : ∀ v ∈ akeys asg, v ∈ domainKeys p)
    (h : solve p sel asg = .ok (some r)) :
    r.length = p.Domain.length ∧ NodupKeys r ∧ ∀ v, v ∈ domainKeys p ↔ v ∈ akeys r := by
  have h2 : solveFuel (unassignedCount p asg + 1) p sel asg = .ok (some r) := h
  obtain ⟨hlen, ndr, hperm⟩ := solveFuel_some_keys h2 hnd hsub
  exact ⟨hlen, ndr, fun v => hperm.mem_iff.symm⟩

/-- Witness for C2's amended theorem at a concrete input. -/
theorem spec_C2_witness :
    ([((1 : Nat), (2 : Nat)), (0, 1)] : Assignment Nat Nat).length =
      (New [((0 : Nat), [(1 : Nat)]), (1, [2])]
        (fun (_ : Constraint Nat) (_ : Assignment Nat Nat) => true)).Domain.length ∧
    NodupKeys [((1 : Nat), (2 : Nat)), (0, 1)] := by
  have h := @spec_C2 Nat Nat _ _
    (New [((0 : Nat), [(1 : Nat)]), (1, [2])] (fun _ _ => true))
    (fun _ => [0, 1]) [] [(1, 2), (0, 1)]
    (by simp [NodupKeys, akeys]) (fun v hv => absurd hv (by simp [akeys])) rfl
  exact ⟨h.1, h.2.1⟩

/-- C3, counterexample: registering the constraint over `[0, 1]` on a
Problem declaring only `0` fails identifying `1`, but variable 0's bucket
has changed from empty to holding the constraint: the failed registration
is partially observable, refuting the state-unchanged part of the claim. -/
theorem spec_C3_cx :
    (addConstraint (New [((0 : Nat), [(5 : Nat)])] (fun _ _ => true)) ⟨[0, 1]⟩).1 =
      .error 1 ∧
    ((addConstraint (New [((0 : Nat), [(5 : Nat)])] (fun _ _ => true)) ⟨[0, 1]⟩).2).Constraints 0 =
      [⟨[0, 1]⟩] ∧
    (New [((0 : Nat), [(5 : Nat)])]
      (fun (_ : Constraint Nat) (_ : Assignment Nat Nat) => true)).Constraints 0 = [] :=
  ⟨rfl, rfl, rfl⟩

/-- C3, amended: when the constraint's variable list splits as
`pre ++ v :: rest` with every variable of `pre` declared and `v`
undeclared, AddConstraint fails with a fatal error identifying `v`, the
domain map is untouched, and each bucket `w` has received one copy of the
constraint per occurrence of `w` in `pre` — the buckets of the variables
validated before the offending one keep the partial registration. -/
theorem spec_C3 {p : Problem V D} {c : Constraint V} {pre : List V} {v : V} {rest : List V}
    (hvars : c.Variables = pre ++ v :: rest)
    (hpre : ∀ u ∈ pre, u ∈ domainKeys p) (hv : v ∉ domainKeys p) :
    ∃ p2, addConstraint p c = (.error v, p2) ∧ p2.Domain = p.Domain ∧
      ∀ w, p2.Constraints w = p.Constraints w ++ List.replicate (pre.count w) c := by
  obtain ⟨p2, heq, hdom, hsat, hbuck⟩ := addConstraintAux_err (c := c) hpre hv
  refine ⟨p2, ?_, hdom, hbuck⟩
  unfold addConstraint
  rw [hvars]
  exact heq

/-- Witness for C3's amended theorem at a concrete input: after the failed
registration the bucket of the declared variable 0 holds the constraint. -/
theorem spec_C3_witness :
    ((addConstraint (New [((0 : Nat), [(5 : Nat)])] (fun _ _ => true)) ⟨[0, 1]⟩).2).Constraints 0 =
      [⟨[0, 1]⟩] := by
  obtain ⟨p2, heq, hdom, hbuck⟩ := @spec_C3 Nat Nat _ _
    (New [((0 : Nat), [(5 : Nat)])] (fun _ _ => true)) ⟨[0, 1]⟩
    [0] 1 [] rfl (by decide) (by decide)
  have h2 : (addConstraint (New [((0 : Nat), [(5 : Nat)])] (fun _ _ => true)) ⟨[0, 1]⟩).2 = p2 := by
    rw [heq]
  rw [h2, hbuck 0]
  rfl

/-- C6: a successful AddConstraint of a constraint over `k` variables puts
it in the bucket of each of those variables, and the consistency check for
a variable evaluates the predicate exactly on that variable's bucket: it is
true exactly when every constraint of the bucket is satisfied, and it is
unchanged under any modification that preserves that bucket and the
predicate. -/
theorem spec_C6 {p : Problem V D} {c : Constraint V}
    (hall : ∀ v ∈ c.Variables, v ∈ domainKeys p) :
    ∃ p2, addConstraint p c = (.ok (), p2) ∧
      (∀ v ∈ c.Variables, c ∈ p2.Constraints v) ∧
      (∀ x (asg : Assignment V D),
        consistent p2 x asg = true ↔ ∀ c2 ∈ p2.Constraints x, p2.SatFn c2 asg = true) ∧
      ∀ (q : Problem V D) x (asg : Assignment V D), q.Constraints x = p2.Constraints x →
        q.SatFn = p2.SatFn → consistent q x asg = consistent p2 x asg := by
  obtain ⟨p2, heq, hdom, hsat, hbuck⟩ := addConstraintAux_ok (c := c) hall
  refine ⟨p2, heq, ?_, fun x asg => consistent_iff, ?_⟩
  · intro v hvmem
    rw [hbuck v]
    refine List.mem_append.mpr (Or.inr ?_)
    rw [List.mem_replicate]
    exact ⟨by have := List.count_pos_iff.mpr hvmem; omega, rfl⟩
  · intro q x asg h1 h2
    unfold consistent
    rw [h1, h2]

/-- Witness for C6 at a concrete input: the two-variable constraint lands
in the bucket of variable 1 (and of variable 0). -/
theorem spec_C6_witness :
    (⟨[0, 1]⟩ : Constraint Nat) ∈
      ((addConstraint (New [((0 : Nat), [(0 : Nat)]), (1, [0])] (fun _ _ => true))
        ⟨[0, 1]⟩).2).Constraints 1 := by
  obtain ⟨p2, heq, hmem, hcons, hframe⟩ := spec_C6
    (p := New [((0 : Nat), [(0 : Nat)]), (1, [0])] (fun _ _ => true))
    (c := ⟨[0, 1]⟩) (by decide)
  have h2 : (addConstraint (New [((0 : Nat), [(0 : Nat)]), (1, [0])] (fun _ _ => true))
      ⟨[0, 1]⟩).2 = p2 := by
    rw [heq]
  rw [h2]
  exact hmem 1 (by decide)

/-- C1, counterexample: a Problem built by New and a successful
AddConstraint, whose single registered constraint's predicate inspects a
variable outside its own variable list; Solve from the empty assignment
returns an assignment on which that registered predicate evaluates to
false. -/
theorem spec_C1_cx :
    (addConstraint (New [((0 : Nat), [(0 : Nat)]), (1, [0])]
        (fun _ asg => match alookup 1 asg with
          | none => true
          | some d => decide (d = 1))) ⟨[0]⟩).1 = .ok () ∧
    (⟨[0]⟩ : Constraint Nat) ∈
      ((addConstraint (New [((0 : Nat), [(0 : Nat)]), (1, [0])]
        (fun _ asg => match alookup 1 asg with
          | none => true
          | some d => decide (d = 1))) ⟨[0]⟩).2).Constraints 0 ∧
    solve ((addConstraint (New [((0 : Nat), [(0 : Nat)]), (1, [0])]
        (fun _ asg => match alookup 1 asg with
          | none => true
          | some d => decide (d = 1))) ⟨[0]⟩).2) (fun _ => [0, 1]) [] =
      .ok (some [(1, 0), (0, 0)]) ∧
    ((addConstraint (New [((0 : Nat), [(0 : Nat)]), (1, [0])]
        (fun _ asg => match alookup 1 asg with
          | none => true
          | some d => decide (d = 1))) ⟨[0]⟩).2).SatFn ⟨[0]⟩ [(1, 0), (0, 0)] = false :=
  ⟨rfl, by decide, rfl, rfl⟩

/-- C1, amended: provided every registered constraint's predicate reads
only the values of the constraint's own variables, the constraint index
has the shape AddConstraint builds, the initial assignment is a map over
declared variables, and every registered constraint has at least one
variable unbound initially (as with the empty assignment), every
registered constraint's predicate evaluates to true on any assignment
Solve returns. -/
theorem spec_C1 {p : Problem V D} {sel : Assignment V D → List V}
    (hloc : LocalSat p) (hgi : GoodIndex p) {init r : Assignment V D}
    (hnd : NodupKeys init) (hsub : ∀ v ∈ akeys init, v ∈ domainKeys p)
    (hfree : ∀ v c, c ∈ p.Constraints v → ∃ w ∈ c.Variables, alookup w init = none)
    (h : solve p sel init = .ok (some r)) :
    ∀ v c, c ∈ p.Constraints v → p.SatFn c r = true := by
  have h2 : solveFuel (unassignedCount p init + 1) p sel init = .ok (some r) := h
  have hInv0 : Inv p init := by
    intro v c hc hall
    obtain ⟨w, hw, hwnone⟩ := hfree v c hc
    have hs := hall w hw
    rw [hwnone] at hs
    simp at hs
  have hInvr : Inv p r := solveFuel_sound hloc hgi hInv0 h2
  obtain ⟨hlen, ndr, hperm⟩ := solveFuel_some_keys h2 hnd hsub
  intro v c hc
  apply hInvr v c hc
  intro w hw
  have hwk : w ∈ domainKeys p := ((hgi v c hc).2 w hw).1
  have hwr : w ∈ akeys r := hperm.mem_iff.mpr hwk
  rw [alookup_isSome]
  exact hwr


/-- Witness for C1's amended theorem at a concrete input: the registered
inequality constraint holds on the assignment Solve finds. -/
theorem spec_C1_witness :
    ((addConstraint (New [((0 : Nat), [(0 : Nat)]), (1, [1])]
      (fun _ asg => match alookup 0 asg, alookup 1 asg with
        | some x, some y => decide (x ≠ y)
        | _, _ => true)) ⟨[0, 1]⟩).2).SatFn ⟨[0, 1]⟩ [(1, 1), (0, 0)] = true := by
  have hadd : addConstraint (New [((0 : Nat), [(0 : Nat)]), (1, [1])]
      (fun _ asg => match alookup 0 asg, alookup 1 asg with
        | some x, some y => decide (x ≠ y)
        | _, _ => true)) ⟨[0, 1]⟩ = (.ok (), (addConstraint (New [((0 : Nat), [(0 : Nat)]), (1, [1])]
      (fun _ asg => match alookup 0 asg, alookup 1 asg with
        | some x, some y => decide (x ≠ y)
        | _, _ => true)) ⟨[0, 1]⟩).2) := rfl
  have hgi := goodIndex_addConstraint goodIndex_New hadd
  obtain ⟨p2, heq, hdom, hsat, hbuck⟩ :=
    @addConstraintAux_ok Nat Nat _ _ ⟨[0, 1]⟩ [0, 1] (New [((0 : Nat), [(0 : Nat)]), (1, [1])]
      (fun _ asg => match alookup 0 asg, alookup 1 asg with
        | some x, some y => decide (x ≠ y)
        | _, _ => true)) (by decide)
  have hp2 : p2 = (addConstraint (New [((0 : Nat), [(0 : Nat)]), (1, [1])]
      (fun _ asg => match alookup 0 asg, alookup 1 asg with
        | some x, some y => decide (x ≠ y)
        | _, _ => true)) ⟨[0, 1]⟩).2 := by
    have h3 : addConstraint (New [((0 : Nat), [(0 : Nat)]), (1, [1])]
      (fun _ asg => match alookup 0 asg, alookup 1 asg with
        | some x, some y => decide (x ≠ y)
        | _, _ => true)) ⟨[0, 1]⟩ = (.ok (), p2) := heq
    rw [h3]
  have hloc : LocalSat ((addConstraint (New [((0 : Nat), [(0 : Nat)]), (1, [1])]
      (fun _ asg => match alookup 0 asg, alookup 1 asg with
        | some x, some y => decide (x ≠ y)
        | _, _ => true)) ⟨[0, 1]⟩).2) := by
    rw [← hp2]
    intro v c2 hc2 a1 a2 hag
    rw [hbuck v] at hc2
    have hc2c : c2 = ⟨[0, 1]⟩ := by
      rcases List.mem_append.mp hc2 with hl | hr
      · simp [New] at hl
      · exact List.eq_of_mem_replicate hr
    subst hc2c
    rw [hsat]
    have h0 := hag 0 (by decide)
    have h1 := hag 1 (by decide)
    show (match alookup 0 a1, alookup 1 a1 with
        | some x, some y => decide (x ≠ y)
        | _, _ => true) =
      (match alookup 0 a2, alookup 1 a2 with
        | some x, some y => decide (x ≠ y)
        | _, _ => true)
    rw [h0, h1]
  have hrun : solve ((addConstraint (New [((0 : Nat), [(0 : Nat)]), (1, [1])]
      (fun _ asg => match alookup 0 asg, alookup 1 asg with
        | some x, some y => decide (x ≠ y)
        | _, _ => true)) ⟨[0, 1]⟩).2) (fun _ => [0, 1]) [] = .ok (some [(1, 1), (0, 0)]) := rfl
  exact spec_C1 hloc hgi (by simp [NodupKeys, akeys])
    (fun v hv => absurd hv (by simp [akeys]))
    (fun v c hc => ⟨v, (hgi v c hc).1, (rfl : alookup v ([] : Assignment Nat Nat) = none)⟩)
    hrun 0 ⟨[0, 1]⟩ (by decide)

end Csp
